import Mathlib

/-!
# my-sum: the cyclic barrier `wall_use` and the argument validation

Shallow embedding of `src/barrier.cpp` (`wall_use`) and of the parts of
`src/validate.cpp` (`validate_n_m`, `validate_arguments`) that the
properties below talk about.

## The barrier model

`wall_use` runs in `m` separate processes that share the two `int`s
`barrier_vars[0]` (called `*barrier` in the code, `arrivals` in the
specification) and `barrier_vars[1]` (`*cycle_count`, `generation`).
Every access of one process to the shared block is one atomic step of the
model; in particular `(*barrier)++` and `(*cycle_count)++` are a load step
followed by a store step, so that other processes may run in between.
Program locations are named after the source line they stand for.

The memory is sequentially consistent: a load sees the last store, and the
loads of the two polling loops are done anew in every iteration (`usleep` is
an external call).

`int` values are mathematical integers of the range `INT_MIN .. INT_MAX`;
the two increments store `wrap32 (v + 1)`, the two's-complement result of the
target's addition (in C++ itself an increment of `INT_MAX` has no defined
result). The worker count `m` is an `int` as well, hence the assumption
`m ≤ INT_MAX` wherever `m` processes run.
-/

namespace MySum

/-! ## Machine integers -/

/-- Largest value of a C++ `int` on the target (32 bit). -/
def INT_MAX : Int := 2147483647

/-- Smallest value of a C++ `int` on the target (32 bit). -/
def INT_MIN : Int := -2147483648

/-- Two's-complement reduction of an integer to the `int` range. -/
def wrap32 (x : Int) : Int := (x + 2147483648) % 4294967296 - 2147483648

/-! ## Barrier: data model -/

/-- Program locations of one process with respect to `wall_use`.
`idle` is "outside of `wall_use`" (before a call or after a return); the
others are named after the line of `barrier.cpp` that is executed next,
with `r`/`w` for the load and the store of a `++`. -/
inductive PC where
  | idle
  | l34
  | l36
  | l40r
  | l40w
  | l43
  | l44
  | l45r
  | l45w
  | l49
  deriving DecidableEq, Repr

/-- The shared state block `barrier_vars[0..1]`. -/
structure Shared where
  /-- The cell `barrier_vars[0]`, `*barrier` (the specification's `arrivals`). -/
  barrier : Int
  /-- The cell `barrier_vars[1]`, `*cycle_count` (the specification's `generation`). -/
  cycle_count : Int
  deriving DecidableEq, Repr

/-- The private state of one process. `calls`, `incs` and `slept` are
history variables: they are only ever written, never read by the code. -/
structure Local where
  /-- The next program location. -/
  pc : PC
  /-- The local variable `local_cycle`. -/
  local_cycle : Int
  /-- The register that holds the value loaded by a `++`. -/
  tmp : Int
  /-- History: number of calls of `wall_use` that have returned. -/
  calls : Nat
  /-- History: number of executed stores of `(*barrier)++`. -/
  incs : Nat
  /-- History: total of the microseconds passed to `usleep`. -/
  slept : Nat
  deriving DecidableEq, Repr

/-- One atomic step of the process `process_number` with worker count `m`
on the shared block `sh`, following `wall_use` line by line. -/
def wall_use_step (m process_number : Int) (sh : Shared) (l : Local) : Shared × Local :=
  match l.pc with
  | .idle =>
      -- line 29: if (m == 1) return;
      if m = 1 then (sh, { l with calls := l.calls + 1 })
      else (sh, { l with pc := .l34 })
  | .l34 =>
      -- line 34: int local_cycle = *cycle_count;
      (sh, { l with pc := .l36, local_cycle := sh.cycle_count })
  | .l36 =>
      -- lines 36-38: while (*barrier != process_number) usleep(100);
      if sh.barrier ≠ process_number then (sh, { l with slept := l.slept + 100 })
      else (sh, { l with pc := .l40r })
  | .l40r =>
      -- line 40, load of (*barrier)++
      (sh, { l with pc := .l40w, tmp := sh.barrier })
  | .l40w =>
      -- line 40, store of (*barrier)++
      ({ sh with barrier := wrap32 (l.tmp + 1) }, { l with pc := .l43, incs := l.incs + 1 })
  | .l43 =>
      -- line 43: if (process_number == m - 1)
      if process_number = m - 1 then (sh, { l with pc := .l44 })
      else (sh, { l with pc := .l49 })
  | .l44 =>
      -- line 44: *barrier = 0;
      ({ sh with barrier := 0 }, { l with pc := .l45r })
  | .l45r =>
      -- line 45, load of (*cycle_count)++
      (sh, { l with pc := .l45w, tmp := sh.cycle_count })
  | .l45w =>
      -- line 45, store of (*cycle_count)++
      ({ sh with cycle_count := wrap32 (l.tmp + 1) }, { l with pc := .l49 })
  | .l49 =>
      -- lines 49-51: while (*cycle_count == local_cycle) usleep(1000);
      if sh.cycle_count = l.local_cycle then (sh, { l with slept := l.slept + 1000 })
      else (sh, { l with pc := .idle, calls := l.calls + 1 })

/-- A step of `wall_use_step` that is one iteration of a polling loop
(the loop condition holds, the process sleeps and tests again). -/
def isWaiting (process_number : Int) (sh : Shared) (l : Local) : Bool :=
  match l.pc with
  | .l36 => decide (sh.barrier ≠ process_number)
  | .l49 => decide (sh.cycle_count = l.local_cycle)
  | _ => false

/-- A fresh process: outside of `wall_use`, nothing counted yet. -/
def Local.fresh : Local :=
  { pc := .idle, local_cycle := 0, tmp := 0, calls := 0, incs := 0, slept := 0 }

/-- One complete call of `wall_use` by a process that is the only one
running: steps are taken until the call has returned; `none` when `fuel`
steps do not suffice. -/
def wall_use : Nat → Int → Int → Shared → Local → Option (Shared × Local)
  | 0, _, _, _, _ => none
  | fuel + 1, m, process_number, sh, l =>
      let r := wall_use_step m process_number sh l
      if r.2.pc = .idle then some r else wall_use fuel m process_number r.1 r.2

/-! ## Barrier: the `m` processes -/

/-- Global state: the shared block and the private state of every rank. -/
structure State where
  /-- The shared block. -/
  shared : Shared
  /-- The private state of the process of each rank. -/
  procs : Nat → Local

/-- The scheduler lets the process of rank `i` take its next atomic step
(ranks outside `0 .. m-1` do not exist: nothing happens). -/
def step (m : Nat) (s : State) (i : Nat) : State :=
  if i < m then
    let r := wall_use_step (m : Int) (i : Int) s.shared (s.procs i)
    { shared := r.1, procs := Function.update s.procs i r.2 }
  else s

/-- Run a schedule: the list of the ranks that take a step, in order. -/
def run (m : Nat) (s : State) (sched : List Nat) : State :=
  sched.foldl (step m) s

/-- Initial state: `arrivals` is zero, `generation` is `g`, and no process
has called `wall_use` yet. -/
def init (g : Int) : State :=
  { shared := { barrier := 0, cycle_count := g }, procs := fun _ => Local.fresh }

/-- States that some interleaving of the `m` processes reaches from `init g`. -/
def Reachable (m : Nat) (g : Int) (s : State) : Prop :=
  ∃ sched : List Nat, s = run m (init g) sched

/-- The effect of `n` consecutive steps of one process on the shared block
and on its private state. -/
def iterStep (m process_number : Int) : Nat → Shared × Local → Shared × Local
  | 0, x => x
  | n + 1, x => iterStep m process_number n (wall_use_step m process_number x.1 x.2)

/-- The steps `idle → l34 → l36 → l40r → l40w → l43 → l49` of one arrival of a
rank that is not the last one, up to its wait for the release. -/
def arriveSched (i : Nat) : List Nat := List.replicate 6 i

/-- The ten steps of the last rank: arrival, reset, advance and return. -/
def lastSched (m : Nat) : List Nat := List.replicate 10 (m - 1)

/-- One full cycle in rank order: ranks `0 .. m-2` arrive one after the
other and wait, rank `m-1` arrives, resets, advances and returns, then every
waiting rank sees the release and returns. -/
def cycleSched (m : Nat) : List Nat :=
  ((List.range (m - 1)).map arriveSched).flatten ++ lastSched m ++ List.range (m - 1)

/-- The schedule of `k` consecutive full cycles. -/
def cyclesSched (m : Nat) : Nat → List Nat
  | 0 => []
  | k + 1 => cycleSched m ++ cyclesSched m k

/-! ## Barrier: the inductive invariant -/

/-- Locations after the store of `(*barrier)++` of the current call. -/
def PC.arrived : PC → Bool
  | .l43 | .l44 | .l45r | .l45w | .l49 => true
  | _ => false

/-- Locations at which `local_cycle` holds the snapshot of the current call. -/
def PC.snap : PC → Bool
  | .idle | .l34 => false
  | _ => true

/-- Locations between the turn check and the store of `(*barrier)++`. -/
def PC.crit : PC → Bool
  | .l40r | .l40w => true
  | _ => false

/-- Locations inside the `if (process_number == m - 1)` block. -/
def PC.lastOnly : PC → Bool
  | .l44 | .l45r | .l45w => true
  | _ => false

/-- Locations after `*barrier = 0` and before the store of `(*cycle_count)++`. -/
def PC.closing : PC → Bool
  | .l45r | .l45w => true
  | _ => false

/-- Locations of the last rank between its arrival and its release of the cycle. -/
def PC.sealing : PC → Bool
  | .l43 | .l44 | .l45r | .l45w => true
  | _ => false

/-- Locations whose step stores into the shared block. -/
def PC.writes : PC → Bool
  | .l40w | .l44 | .l45w => true
  | _ => false

/-- Rank `i` is between its passed turn check and the end of its stores:
the load and the store of `(*barrier)++`, and for rank `m - 1` also the
branch, the reset and the two halves of `(*cycle_count)++`. -/
def isWriter (m i : Nat) (pc : PC) : Bool :=
  pc.crit || (decide (i + 1 = m) && pc.sealing)

/-- What the invariant says about the process of rank `i`, where `c` is the
number of cycles released so far. -/
structure LInv (m c : Nat) (sh : Shared) (i : Nat) (p : Local) : Prop where
  incs_eq : p.incs = p.calls + (if p.pc.arrived = true then 1 else 0)
  calls_le : p.calls ≤ c
  le_incs : c ≤ p.incs
  last_only : p.pc.lastOnly = true → i + 1 = m
  snap_cur : p.pc.snap = true → p.calls = c → p.local_cycle = sh.cycle_count
  snap_old : p.pc.snap = true → p.calls + 1 = c →
    sh.cycle_count = wrap32 (p.local_cycle + 1)
  crit : p.pc.crit = true → sh.barrier = (i : Int)
  tmp_b : p.pc = .l40w → p.tmp = sh.barrier
  tmp_c : p.pc = .l45w → p.tmp = sh.cycle_count
  last_calls : i + 1 = m → p.pc.sealing = true → p.calls = c
  last_rel : i + 1 = m → p.pc = .l49 → p.calls + 1 = c

/-- The inductive invariant of the `m`-process system after `c` releases. -/
structure Inv (m c : Nat) (s : State) : Prop where
  loc : ∀ i, i < m → LInv m c s.shared i (s.procs i)
  closing : (s.procs (m - 1)).pc.closing = true →
    s.shared.barrier = 0 ∧ ∀ i, i < m → (s.procs i).incs = c + 1
  opened : (s.procs (m - 1)).pc.closing = false →
    0 ≤ s.shared.barrier ∧ s.shared.barrier ≤ (m : Int) ∧
    ∀ i, i < m → (((i : Int) < s.shared.barrier → (s.procs i).incs = c + 1) ∧
      (s.shared.barrier ≤ (i : Int) → (s.procs i).incs = c))

/-! ## Validation of the command line (`validate.cpp`) -/

/-- The constant `MAX_N` of `validate.h`. -/
def MAX_N : Int := 10000000

/-- The error message in front of each `exit(EXIT_FAILURE)`. -/
inductive Exit where
  /-- The text "Usage: ...". -/
  | usage
  /-- The text "Error: n and m must be integer values". -/
  | not_integer
  /-- The text "Error: n and m must be greater than 0". -/
  | not_positive
  /-- The text "Error: n is too large, and cannot exceed ...". -/
  | too_large
  /-- The text "Error: Input and output file names cannot be empty or whitespace.". -/
  | empty_name
  /-- The text "Error: Input and output file must be different.". -/
  | same_file
  /-- The text "Error: output file cannot be created or written to.". -/
  | output_unwritable
  /-- The text "Error: Input file does not exist or cannot be opened". -/
  | input_missing
  /-- The text "Error: Less than n numbers in input file". -/
  | too_few_numbers
  deriving DecidableEq, Repr

/-- The warnings that `validate_n_m` prints without exiting. -/
inductive Warning where
  /-- More processes requested than elements. -/
  | m_exceeds_n
  /-- More processes requested than cores. -/
  | m_exceeds_cores
  deriving DecidableEq, Repr

/-- The function `validate_n_m`; `available_cores` is the value of
`thread::hardware_concurrency()`. The result is the returned worker count
and the printed warnings, or the error of the `exit`. -/
def validate_n_m (available_cores n m : Int) : Except Exit (Int × List Warning) :=
  if n ≤ 0 ∨ m ≤ 0 then .error .not_positive
  else if n > MAX_N then .error .too_large
  else
    let w1 := if m > n then [Warning.m_exceeds_n] else []
    let m1 := if m > n then n else m
    let w2 := if m1 > available_cores then [Warning.m_exceeds_cores] else []
    .ok (m1, w1 ++ w2)

/-- The C function `isspace` in the "C" locale. -/
def isspace (c : Char) : Bool :=
  c.toNat = 32 || (9 ≤ c.toNat && c.toNat ≤ 13)

/-- The C function `isdigit`. -/
def isdigit (c : Char) : Bool :=
  48 ≤ c.toNat && c.toNat ≤ 57

/-- The two exceptions of `std::stoi`. -/
inductive StoiError where
  | invalid_argument
  | out_of_range
  deriving DecidableEq, Repr

/-- The decimal value of a list of digits. -/
def digitsValue (ds : List Char) : Int :=
  ds.foldl (fun a c => 10 * a + ((c.toNat - 48 : Nat) : Int)) 0

/-- The library function `std::stoi(str)` (base 10, no position returned):
leading white space is skipped, an optional sign is read, then the longest
run of digits; what follows the digits is ignored. No digit at all throws
`invalid_argument`, a value outside of `int` throws `out_of_range`. -/
def stoi (str : String) : Except StoiError Int :=
  let cs := str.toList.dropWhile isspace
  let neg := decide (cs.head? = some (Char.ofNat 45))
  let body :=
    match cs with
    | c :: r => if c.toNat = 45 ∨ c.toNat = 43 then r else c :: r
    | [] => []
  let ds := body.takeWhile isdigit
  if ds = [] then .error .invalid_argument
  else
    let v := if neg then - digitsValue ds else digitsValue ds
    if v < INT_MIN ∨ INT_MAX < v then .error .out_of_range else .ok v

/-- The function `isWhitespaceOnly`. -/
def isWhitespaceOnly (s : String) : Bool :=
  s.toList.all isspace

/-- What the validation sees of the machine: the number of cores, whether
`ofstream test_out(name)` succeeds, and for an input file whether it can be
opened and how many numbers `infile >> val` reads from its start. -/
structure Env where
  /-- Value of `thread::hardware_concurrency()`. -/
  available_cores : Int
  /-- Whether the output file of this name can be opened for writing. -/
  writable : String → Bool
  /-- The count of leading numbers of a file; `none` when it cannot be opened. -/
  numbers : String → Option Nat

/-- The function `validate_io_files`. -/
def validate_io_files (env : Env) (input_file output_file : String) : Except Exit Unit :=
  if input_file.isEmpty ∨ output_file.isEmpty ∨ isWhitespaceOnly input_file = true ∨
      isWhitespaceOnly output_file = true then .error .empty_name
  else if input_file = output_file then .error .same_file
  else if env.writable output_file = false then .error .output_unwritable
  else .ok ()

/-- The function `exists_and_enough_numbers`: the returned value and the
value stored in `fileExists`. -/
def exists_and_enough_numbers (env : Env) (n : Int) (filename : String) : Bool × Bool :=
  match env.numbers filename with
  | none => (false, false)
  | some k => (decide (n ≤ (k : Int)), true)

/-- The output parameters and the return value of `validate_arguments`. -/
structure Validated where
  /-- The returned worker count. -/
  ret : Int
  /-- The output parameter `n`. -/
  n : Int
  /-- The output parameter `m`. -/
  m : Int
  /-- The output parameter `input_file`. -/
  input_file : String
  /-- The output parameter `output_file`. -/
  output_file : String
  deriving DecidableEq, Repr

/-- The function `validate_arguments` on the argument vector `argv`
(`argc` is its length). -/
def validate_arguments (env : Env) (argv : List String) : Except Exit Validated :=
  match argv with
  | [_, a1, a2, a3, a4] =>
    match stoi a1 with
    | .error _ => .error .not_integer
    | .ok n =>
      match stoi a2 with
      | .error _ => .error .not_integer
      | .ok m0 =>
        match validate_n_m env.available_cores n m0 with
        | .error e => .error e
        | .ok (m, _) =>
          match validate_io_files env a3 a4 with
          | .error e => .error e
          | .ok _ =>
            match exists_and_enough_numbers env n a3 with
            | (true, _) => .ok { ret := m, n := n, m := m, input_file := a3, output_file := a4 }
            | (false, false) => .error .input_missing
            | (false, true) => .error .too_few_numbers
  | _ => .error .usage

/-- A machine on which every file is writable and every input file
holds a thousand numbers. -/
def Env.plain : Env :=
  { available_cores := 8, writable := fun _ => true, numbers := fun _ => some 1000 }

/-! ## Concrete states used as examples -/

/-- Two processes, `generation` at `INT_MAX`: rank 0 has arrived and waits,
rank 1 has arrived, has reset `arrivals` and has loaded `*cycle_count`; its
next step is the store of `(*cycle_count)++`. -/
def overflowState : State :=
  run 2 (init 2147483647) (arriveSched 0 ++ List.replicate 8 1)

/-- Two processes that start from the zero-initialised block and complete
2147483647 full cycles; then rank 0 arrives and waits, and rank 1 arrives,
resets `arrivals` and loads `*cycle_count`; its next step is the store of
`(*cycle_count)++`. -/
def lateState : State :=
  run 2 (init 0) (cyclesSched 2 2147483647 ++ (arriveSched 0 ++ List.replicate 8 1))

/-- Two processes from the zero-initialised block: rank 0 has arrived and
waits, rank 1 has arrived, has reset `arrivals` and has loaded
`*cycle_count`; its next step is the store of `(*cycle_count)++`. -/
def advanceState : State :=
  run 2 (init 0) (arriveSched 0 ++ List.replicate 8 1)

/-- A schedule of one cycle of two processes with polling: rank 1 calls
first and polls twice at line 36, rank 0 arrives and polls twice at line 49,
then rank 1 arrives, resets, advances and returns, and rank 0 returns. -/
def pollSched : List Nat :=
  [1, 1, 1, 1] ++ arriveSched 0 ++ [0, 0] ++ List.replicate 8 1 ++ [0]

/-- Two processes: rank 0 has passed its turn check and has loaded
`*barrier`; its next step is the store of `(*barrier)++`. -/
def storeState : State :=
  run 2 (init 0) [0, 0, 0, 0]

/-- Scenario B, three processes: rank 0 has arrived and waits; rank 2 has
entered `wall_use`, has taken its snapshot and has polled three times. -/
def scenarioB : State :=
  run 3 (init 0) (arriveSched 0 ++ [2, 2, 2, 2, 2])

end MySum

namespace MySum

/-! ## Lemmas: the invariant is inductive -/

theorem wrap32_id (x : Int) (h1 : -2147483648 ≤ x) (h2 : x ≤ 2147483647) : wrap32 x = x := by
  unfold wrap32; omega

theorem wrap32_succ_ne (x : Int) : wrap32 (x + 1) ≠ x := by
  unfold wrap32; omega

theorem step_shared (m : Nat) (s : State) (i : Nat) (hi : i < m) :
    (step m s i).shared = (wall_use_step (m : Int) (i : Int) s.shared (s.procs i)).1 := by
  simp [step, hi]

theorem step_procs (m : Nat) (s : State) (i j : Nat) (hi : i < m) :
    (step m s i).procs j =
      if j = i then (wall_use_step (m : Int) (i : Int) s.shared (s.procs i)).2 else s.procs j := by
  simp [step, hi, Function.update_apply]

theorem inv_init (m : Nat) (g : Int) : Inv m 0 (init g) := by
  refine ⟨fun i _ => ?_, ?_, ?_⟩
  · constructor <;> simp [init, Local.fresh, PC.arrived, PC.snap, PC.crit, PC.lastOnly, PC.sealing]
  · simp [init, Local.fresh, PC.closing]
  · simp [init, Local.fresh, PC.closing]

/-- A step of rank `i` that leaves the shared block alone and keeps the
invariant of rank `i` itself keeps the whole invariant, provided the
counter `incs` and the class `closing` of its location do not change. -/
theorem inv_local_step (m c : Nat) (s : State) (i : Nat) (p' : Local)
    (h : Inv m c s)
    (hp : LInv m c s.shared i p')
    (hincs : p'.incs = (s.procs i).incs)
    (hclo : p'.pc.closing = (s.procs i).pc.closing) :
    Inv m c { shared := s.shared, procs := Function.update s.procs i p' } := by
  have hproc : ∀ j, (Function.update s.procs i p' j).incs = (s.procs j).incs := by
    intro j; by_cases hj : j = i
    · subst hj; simp [hincs]
    · simp [Function.update_noteq hj]
  have hcl : (Function.update s.procs i p' (m - 1)).pc.closing = (s.procs (m - 1)).pc.closing := by
    by_cases hj : m - 1 = i
    · rw [hj]; simp [hclo]
    · simp [Function.update_noteq hj]
  refine ⟨fun j hj => ?_, ?_, ?_⟩
  · by_cases hji : j = i
    · subst hji; simpa using hp
    · simpa [Function.update_noteq hji] using h.loc j hj
  · intro hc
    rw [hcl] at hc
    simpa only [hproc] using h.closing hc
  · intro hc
    rw [hcl] at hc
    simpa only [hproc] using h.opened hc


theorem linv_quiet_step (m c : Nat) (sh : Shared) (i : Nat) (p : Local)
    (hm : 2 ≤ m) (hp : LInv m c sh i p) (hw : p.pc.writes = false) :
    (wall_use_step (m : Int) (i : Int) sh p).1 = sh ∧
    LInv m c sh i (wall_use_step (m : Int) (i : Int) sh p).2 ∧
    (wall_use_step (m : Int) (i : Int) sh p).2.incs = p.incs ∧
    (wall_use_step (m : Int) (i : Int) sh p).2.pc.closing = p.pc.closing := by
  obtain ⟨h1, h2, h3, h4, h5, h6, h7, h8, h9, h10⟩ := hp
  rcases p with ⟨pc, lc, tmp, calls, incs, slept⟩
  have hm1 : (m : Int) ≠ 1 := by omega
  cases pc <;> simp [PC.writes] at hw <;>
    simp only [wall_use_step, PC.arrived, PC.snap, PC.crit, PC.lastOnly, PC.closing,
      PC.sealing] at * <;> simp at *
  all_goals (try split_ifs)
  all_goals (try refine ⟨rfl, ?_, rfl, rfl⟩)
  all_goals constructor
  all_goals (try simp only [PC.arrived, PC.snap, PC.crit, PC.lastOnly, PC.closing, PC.sealing])
  all_goals (try simp)
  all_goals (try omega)


theorem inv_step_l40w (m c : Nat) (s : State) (i : Nat) (hmax : (m : Int) ≤ INT_MAX)
    (h : Inv m c s) (hi : i < m) (hpc : (s.procs i).pc = .l40w) :
    Inv m c (step m s i) := by
  have hp := h.loc i hi
  have htmp := hp.tmp_b hpc
  have hbar := hp.crit (by simp [hpc, PC.crit])
  have hincs := hp.incs_eq
  simp only [hpc, PC.arrived] at hincs
  have hnc : (s.procs (m - 1)).pc.closing = false := by
    by_contra hcl
    have := (h.closing (by simpa using hcl)).2 i hi
    have := hp.calls_le
    simp at hincs
    omega
  obtain ⟨hA0, hAm, hpre⟩ := h.opened hnc
  have hsh : (step m s i).shared = { s.shared with barrier := (i : Int) + 1 } := by
    rw [step_shared m s i hi]
    simp only [wall_use_step, hpc, htmp, hbar]
    rw [wrap32_id] <;> simp only [INT_MAX] at hmax <;> omega
  have hpr : ∀ j, (step m s i).procs j =
      if j = i then { s.procs i with pc := .l43, incs := (s.procs i).incs + 1 } else s.procs j := by
    intro j; rw [step_procs m s i j hi]; simp only [wall_use_step, hpc]
  refine ⟨fun j hj => ?_, ?_, ?_⟩
  · rw [hsh, hpr]
    by_cases hji : j = i
    · subst hji
      simp only [if_true]
      have hci := (hpre j hi).2 (by omega)
      constructor <;> simp [PC.arrived, PC.snap, PC.crit, PC.lastOnly, PC.sealing]
      · simp at hincs; omega
      · exact hp.calls_le
      · have := hp.le_incs; omega
      · exact hp.snap_cur (by simp [hpc, PC.snap])
      · exact hp.snap_old (by simp [hpc, PC.snap])
      · intro _; simp at hincs; omega
    · simp only [if_neg hji]
      have hq := h.loc j hj
      have hncrit : (s.procs j).pc.crit = false := by
        by_contra hcr
        have := hq.crit (by simpa using hcr)
        omega
      constructor
      · exact hq.incs_eq
      · exact hq.calls_le
      · exact hq.le_incs
      · exact hq.last_only
      · exact hq.snap_cur
      · exact hq.snap_old
      · intro hcr; simp [hncrit] at hcr
      · intro hcr; simp [hcr, PC.crit] at hncrit
      · exact hq.tmp_c
      · exact hq.last_calls
      · exact hq.last_rel
  · rw [hpr]
    intro hcl
    exfalso
    by_cases hji : m - 1 = i
    · simp [hji, PC.closing] at hcl
    · simp only [if_neg hji] at hcl
      simp [hnc] at hcl
  · intro _
    rw [hsh]
    refine ⟨by simp; omega, by simp; omega, fun j hj => ?_⟩
    rw [hpr]
    by_cases hji : j = i
    · subst hji
      have hci := (hpre j hi).2 (by omega)
      simp only [if_true]
      constructor
      · intro _; simp; omega
      · intro hle; omega
    · simp only [if_neg hji]
      constructor
      · intro hlt; exact (hpre j hj).1 (by omega)
      · intro hle; exact (hpre j hj).2 (by omega)


theorem inv_step_l44 (m c : Nat) (s : State) (i : Nat)
    (h : Inv m c s) (hi : i < m) (hpc : (s.procs i).pc = .l44) :
    Inv m c (step m s i) := by
  have hp := h.loc i hi
  have hlast : i + 1 = m := hp.last_only (by simp [hpc, PC.lastOnly])
  have hmi : m - 1 = i := by omega
  have hcalls : (s.procs i).calls = c := hp.last_calls hlast (by simp [hpc, PC.sealing])
  have hincs := hp.incs_eq
  simp [hpc, PC.arrived] at hincs
  have hnc : (s.procs (m - 1)).pc.closing = false := by simp [hmi, hpc, PC.closing]
  obtain ⟨hA0, hAm, hpre⟩ := h.opened hnc
  have hAi : (i : Int) < s.shared.barrier := by
    by_contra hlt
    have := (hpre i hi).2 (by omega)
    omega
  have hsh : (step m s i).shared = { s.shared with barrier := 0 } := by
    rw [step_shared m s i hi]
    simp only [wall_use_step, hpc]
  have hpr : ∀ j, (step m s i).procs j =
      if j = i then { s.procs i with pc := .l45r } else s.procs j := by
    intro j; rw [step_procs m s i j hi]; simp only [wall_use_step, hpc]
  have hall : ∀ j, j < m → ((step m s i).procs j).incs = c + 1 := by
    intro j hj
    rw [hpr]
    by_cases hji : j = i
    · subst hji; simp only [if_true]; omega
    · simp only [if_neg hji]; exact (hpre j hj).1 (by omega)
  refine ⟨fun j hj => ?_, ?_, ?_⟩
  · rw [hsh, hpr]
    by_cases hji : j = i
    · subst hji
      simp only [if_true]
      constructor <;> simp [PC.arrived, PC.snap, PC.crit, PC.lastOnly, PC.sealing]
      · omega
      · omega
      · omega
      · omega
      · exact hp.snap_cur (by simp [hpc, PC.snap])
      · exact hp.snap_old (by simp [hpc, PC.snap])
      · intro _; exact hcalls
    · simp only [if_neg hji]
      have hq := h.loc j hj
      have hncrit : (s.procs j).pc.crit = false := by
        by_contra hcr
        have := hq.crit (by simpa using hcr)
        omega
      constructor
      · exact hq.incs_eq
      · exact hq.calls_le
      · exact hq.le_incs
      · exact hq.last_only
      · exact hq.snap_cur
      · exact hq.snap_old
      · intro hcr; simp [hncrit] at hcr
      · intro hcr; simp [hcr, PC.crit] at hncrit
      · exact hq.tmp_c
      · exact hq.last_calls
      · exact hq.last_rel
  · intro _
    exact ⟨by rw [hsh], hall⟩
  · rw [hpr]
    intro hcl
    simp [hmi, PC.closing] at hcl

theorem inv_step_l45w (m c : Nat) (s : State) (i : Nat)
    (h : Inv m c s) (hi : i < m) (hpc : (s.procs i).pc = .l45w) :
    Inv m (c + 1) (step m s i) := by
  have hp := h.loc i hi
  have hlast : i + 1 = m := hp.last_only (by simp [hpc, PC.lastOnly])
  have hmi : m - 1 = i := by omega
  have hcalls : (s.procs i).calls = c := hp.last_calls hlast (by simp [hpc, PC.sealing])
  have hincs := hp.incs_eq
  simp [hpc, PC.arrived] at hincs
  have htmp := hp.tmp_c hpc
  have hcl : (s.procs (m - 1)).pc.closing = true := by simp [hmi, hpc, PC.closing]
  obtain ⟨hA0, hall⟩ := h.closing hcl
  have hsh : (step m s i).shared =
      { s.shared with cycle_count := wrap32 (s.shared.cycle_count + 1) } := by
    rw [step_shared m s i hi]
    simp only [wall_use_step, hpc, htmp]
  have hpr : ∀ j, (step m s i).procs j =
      if j = i then { s.procs i with pc := .l49 } else s.procs j := by
    intro j; rw [step_procs m s i j hi]; simp only [wall_use_step, hpc]
  have hall2 : ∀ j, j < m → ((step m s i).procs j).incs = c + 1 := by
    intro j hj
    rw [hpr]
    by_cases hji : j = i
    · subst hji; simp only [if_true]; omega
    · simp only [if_neg hji]; exact hall j hj
  refine ⟨fun j hj => ?_, ?_, ?_⟩
  · rw [hsh, hpr]
    by_cases hji : j = i
    · subst hji
      simp only [if_true]
      constructor <;> simp [PC.arrived, PC.snap, PC.crit, PC.lastOnly, PC.sealing]
      · omega
      · omega
      · omega
      · omega
      · rw [hp.snap_cur (by simp [hpc, PC.snap]) hcalls]; intro _; rfl
      · omega
    · simp only [if_neg hji]
      have hq := h.loc j hj
      have hqi := hall j hj
      constructor
      · exact hq.incs_eq
      · have := hq.calls_le; omega
      · omega
      · exact hq.last_only
      · intro _ hc; have := hq.calls_le; omega
      · intro hsn hc
        rw [hq.snap_cur hsn (by omega)]
      · exact hq.crit
      · exact hq.tmp_b
      · intro hj45
        have := hq.last_only (by simp [hj45, PC.lastOnly])
        omega
      · intro hjl; omega
      · intro hjl; omega
  · rw [hpr]
    intro hcl
    simp [hmi, PC.closing] at hcl
  · intro _
    rw [hsh]
    refine ⟨by simp [hA0], by simp [hA0], fun j hj => ?_⟩
    constructor
    · intro hlt; simp [hA0] at hlt; omega
    · intro _; exact hall2 j hj

/-- Every step keeps the invariant; the count of released cycles goes up
by one exactly at the store of `(*cycle_count)++`. -/
theorem inv_step (m c : Nat) (s : State) (i : Nat) (hm : 2 ≤ m)
    (hmax : (m : Int) ≤ INT_MAX) (h : Inv m c s) :
    Inv m (if i < m ∧ (s.procs i).pc = .l45w then c + 1 else c) (step m s i) := by
  by_cases hi : i < m
  · by_cases h45 : (s.procs i).pc = .l45w
    · rw [if_pos ⟨hi, h45⟩]; exact inv_step_l45w m c s i h hi h45
    · rw [if_neg (fun hh => h45 hh.2)]
      by_cases h40 : (s.procs i).pc = .l40w
      · exact inv_step_l40w m c s i hmax h hi h40
      · by_cases h44 : (s.procs i).pc = .l44
        · exact inv_step_l44 m c s i h hi h44
        · have hw : (s.procs i).pc.writes = false := by
            cases hpc : (s.procs i).pc <;> simp_all [PC.writes]
          obtain ⟨h1, h2, h3, h4⟩ :=
            linv_quiet_step m c s.shared i (s.procs i) hm (h.loc i hi) hw
          have := inv_local_step m c s i _ h h2 h3 h4
          simpa [step, hi, h1] using this
  · rw [if_neg (fun hh => hi hh.1)]
    simpa [step, hi] using h

theorem inv_run (m : Nat) (hm : 2 ≤ m) (hmax : (m : Int) ≤ INT_MAX) (sched : List Nat) :
    ∀ (c : Nat) (s : State), Inv m c s → ∃ c', c ≤ c' ∧ Inv m c' (run m s sched) := by
  induction sched with
  | nil => intro c s h; exact ⟨c, le_refl c, h⟩
  | cons i rest ih =>
    intro c s h
    have h1 := inv_step m c s i hm hmax h
    obtain ⟨c', hc', hinv⟩ := ih _ _ h1
    refine ⟨c', ?_, by simpa [run] using hinv⟩
    split_ifs at hc' <;> omega

theorem inv_of_reachable (m : Nat) (g : Int) (s : State) (hm : 2 ≤ m)
    (hmax : (m : Int) ≤ INT_MAX) (h : Reachable m g s) : ∃ c, Inv m c s := by
  obtain ⟨sched, rfl⟩ := h
  obtain ⟨c, _, hc⟩ := inv_run m hm hmax sched 0 (init g) (inv_init m g)
  exact ⟨c, hc⟩

end MySum

namespace MySum

/-! ## Lemmas: what a step does to the shared block -/

/-- In a state of the invariant, a step of rank `i` is one of: the store of
its arrival (with `*barrier = i` before), the reset by the last rank (with
`*barrier = m` before), the advance of `*cycle_count` by the last rank (with
`*barrier = 0`), or a step that leaves the shared block as it is. -/
theorem step_effect (m c : Nat) (s : State) (i : Nat) (hmax : (m : Int) ≤ INT_MAX)
    (h : Inv m c s) (hi : i < m) :
    ((s.procs i).pc = .l40w ∧ s.shared.barrier = (i : Int) ∧
        (step m s i).shared = ⟨s.shared.barrier + 1, s.shared.cycle_count⟩) ∨
    ((s.procs i).pc = .l44 ∧ i + 1 = m ∧ s.shared.barrier = (m : Int) ∧
        (step m s i).shared = ⟨0, s.shared.cycle_count⟩) ∨
    ((s.procs i).pc = .l45w ∧ i + 1 = m ∧ s.shared.barrier = 0 ∧
        (step m s i).shared = ⟨s.shared.barrier, wrap32 (s.shared.cycle_count + 1)⟩) ∨
    ((s.procs i).pc.writes = false ∧ (step m s i).shared = s.shared) := by
  have hp := h.loc i hi
  rw [step_shared m s i hi]
  cases hpc : (s.procs i).pc
  case l40w =>
    left
    have htmp := hp.tmp_b hpc
    have hbar := hp.crit (by simp [hpc, PC.crit])
    refine ⟨rfl, hbar, ?_⟩
    simp only [wall_use_step, hpc, htmp, hbar]
    rw [wrap32_id] <;> simp only [INT_MAX] at hmax <;> omega
  case l44 =>
    right; left
    have hlast : i + 1 = m := hp.last_only (by simp [hpc, PC.lastOnly])
    have hmi : m - 1 = i := by omega
    have hcalls : (s.procs i).calls = c := hp.last_calls hlast (by simp [hpc, PC.sealing])
    have hincs := hp.incs_eq
    simp [hpc, PC.arrived] at hincs
    have hnc : (s.procs (m - 1)).pc.closing = false := by simp [hmi, hpc, PC.closing]
    obtain ⟨hA0, hAm, hpre⟩ := h.opened hnc
    have hAi : (i : Int) < s.shared.barrier := by
      by_contra hlt
      have := (hpre i hi).2 (by omega)
      omega
    refine ⟨rfl, hlast, by omega, ?_⟩
    simp only [wall_use_step, hpc]
  case l45w =>
    right; right; left
    have hlast : i + 1 = m := hp.last_only (by simp [hpc, PC.lastOnly])
    have hmi : m - 1 = i := by omega
    have hcl : (s.procs (m - 1)).pc.closing = true := by simp [hmi, hpc, PC.closing]
    refine ⟨rfl, hlast, (h.closing hcl).1, ?_⟩
    simp only [wall_use_step, hpc, hp.tmp_c hpc]
  all_goals
    right; right; right
    refine ⟨by simp [PC.writes], ?_⟩
    simp only [wall_use_step, hpc]
    try split_ifs <;> rfl

/-- The cell `*cycle_count` always holds an `int` value. -/
theorem cycle_count_range (m : Nat) (g : Int) (hg1 : INT_MIN ≤ g) (hg2 : g ≤ INT_MAX)
    (sched : List Nat) :
    INT_MIN ≤ (run m (init g) sched).shared.cycle_count ∧
      (run m (init g) sched).shared.cycle_count ≤ INT_MAX := by
  have key : ∀ (sched : List Nat) (s : State),
      (INT_MIN ≤ s.shared.cycle_count ∧ s.shared.cycle_count ≤ INT_MAX) →
      (INT_MIN ≤ (run m s sched).shared.cycle_count ∧
        (run m s sched).shared.cycle_count ≤ INT_MAX) := by
    intro sched
    induction sched with
    | nil => intro s hs; simpa [run] using hs
    | cons i rest ih =>
      intro s hs
      have : run m s (i :: rest) = run m (step m s i) rest := by simp [run]
      rw [this]
      apply ih
      by_cases hi : i < m
      · rw [step_shared m s i hi]
        cases hpc : (s.procs i).pc <;> simp only [wall_use_step, hpc] <;>
          (try split_ifs) <;> (try exact hs)
        simp only [INT_MIN, INT_MAX, wrap32]
        omega
      · simpa [step, hi] using hs
  exact key sched (init g) (by simpa [init] using ⟨hg1, hg2⟩)

end MySum

namespace MySum

/-! ## Lemmas: one full cycle in rank order -/

theorem run_append (m : Nat) (s : State) (a b : List Nat) :
    run m s (a ++ b) = run m (run m s a) b := by
  simp [run, List.foldl_append]

theorem run_replicate (m i : Nat) (hi : i < m) (n : Nat) (s : State) :
    run m s (List.replicate n i) =
      { shared := (iterStep (m : Int) (i : Int) n (s.shared, s.procs i)).1,
        procs := Function.update s.procs i
          (iterStep (m : Int) (i : Int) n (s.shared, s.procs i)).2 } := by
  induction n generalizing s with
  | zero => simp [run, iterStep]
  | succ n ih =>
    have h1 : run m s (List.replicate (n + 1) i) = run m (step m s i) (List.replicate n i) := by
      simp [run, List.replicate_succ]
    rw [h1, ih]
    simp [step, hi, iterStep]

/-- The six steps of the arrival of a rank that is not the last one. -/
theorem iterStep_arrive (m i : Nat) (hi : i + 1 < m) (hmax : (m : Int) ≤ INT_MAX) (g : Int)
    (p : Local) (hp : p.pc = .idle) :
    iterStep (m : Int) (i : Int) 6 (⟨(i : Int), g⟩, p) =
      (⟨(i : Int) + 1, g⟩,
        { p with pc := .l49, local_cycle := g, tmp := (i : Int), incs := p.incs + 1 }) := by
  rcases p with ⟨pc, lc, tmp, calls, incs, slept⟩
  simp only at hp
  subst hp
  have hm1 : (m : Int) ≠ 1 := by omega
  have hne : ¬ ((i : Int) = (m : Int) - 1) := by omega
  have hw : wrap32 ((i : Int) + 1) = (i : Int) + 1 := by
    simp only [INT_MAX] at hmax
    exact wrap32_id _ (by omega) (by omega)
  simp [iterStep, wall_use_step, hm1, hne, hw]

/-- The ten steps of the last rank: arrival, reset, advance, return. -/
theorem iterStep_last (m i : Nat) (hi : i + 1 = m) (hm : 2 ≤ m) (hmax : (m : Int) ≤ INT_MAX)
    (g : Int) (p : Local) (hp : p.pc = .idle) :
    iterStep (m : Int) (i : Int) 10 (⟨(i : Int), g⟩, p) =
      (⟨0, wrap32 (g + 1)⟩,
        { p with pc := .idle, local_cycle := g, tmp := g, incs := p.incs + 1,
                 calls := p.calls + 1 }) := by
  rcases p with ⟨pc, lc, tmp, calls, incs, slept⟩
  simp only at hp
  subst hp
  have hm1 : (m : Int) ≠ 1 := by omega
  have he : (i : Int) = (m : Int) - 1 := by omega
  have hw : wrap32 ((i : Int) + 1) = (i : Int) + 1 := by
    simp only [INT_MAX] at hmax
    exact wrap32_id _ (by omega) (by omega)
  have hne := wrap32_succ_ne g
  simp [iterStep, wall_use_step, hm1, he, hw, hne]

/-- The first eight steps of the last rank: arrival, reset and the load of
`(*cycle_count)++`. -/
theorem iterStep_advance (m i : Nat) (hi : i + 1 = m) (hm : 2 ≤ m)
    (hmax : (m : Int) ≤ INT_MAX) (g : Int) (p : Local) (hp : p.pc = .idle) :
    iterStep (m : Int) (i : Int) 8 (⟨(i : Int), g⟩, p) =
      (⟨0, g⟩, { p with pc := .l45w, local_cycle := g, tmp := g, incs := p.incs + 1 }) := by
  rcases p with ⟨pc, lc, tmp, calls, incs, slept⟩
  simp only at hp
  subst hp
  have hm1 : (m : Int) ≠ 1 := by omega
  have he : (i : Int) = (m : Int) - 1 := by omega
  have hw : wrap32 ((i : Int) + 1) = (i : Int) + 1 := by
    simp only [INT_MAX] at hmax
    exact wrap32_id _ (by omega) (by omega)
  simp [iterStep, wall_use_step, hm1, he, hw]

/-- The arrival phase: after the arrivals of the ranks `0 .. j-1`. -/
theorem run_arrivals (m : Nat) (hmax : (m : Int) ≤ INT_MAX) (g : Int) (s0 : State)
    (hs : s0.shared = ⟨0, g⟩) (hidle : ∀ i, i < m → (s0.procs i).pc = .idle) :
    ∀ j, j + 1 ≤ m →
      (run m s0 ((List.range j).map arriveSched).flatten).shared = ⟨(j : Int), g⟩ ∧
      (∀ i, i < j → (run m s0 ((List.range j).map arriveSched).flatten).procs i =
        { s0.procs i with pc := .l49, local_cycle := g, tmp := (i : Int),
                          incs := (s0.procs i).incs + 1 }) ∧
      (∀ i, j ≤ i → (run m s0 ((List.range j).map arriveSched).flatten).procs i = s0.procs i) := by
  intro j
  induction j with
  | zero =>
    intro _
    refine ⟨by simpa [run] using hs, fun i hi => by omega, fun i _ => by simp [run]⟩
  | succ j ih =>
    intro hj
    obtain ⟨h1, h2, h3⟩ := ih (by omega)
    have hsched : ((List.range (j + 1)).map arriveSched).flatten =
        ((List.range j).map arriveSched).flatten ++ List.replicate 6 j := by
      simp [List.range_succ, arriveSched]
    rw [hsched, run_append, run_replicate m j (by omega), h1, h3 j (le_refl j),
      iterStep_arrive m j (by omega) hmax g _ (hidle j (by omega))]
    refine ⟨by simp, fun i hi => ?_, fun i hi => ?_⟩
    · by_cases hij : i = j
      · subst hij; simp
      · simp only [Function.update_noteq hij]
        exact h2 i (by omega)
    · have hij : i ≠ j := by omega
      simp only [Function.update_noteq hij]
      exact h3 i (by omega)

/-- The release phase: the waiting ranks `0 .. j-1` see the new value of
`*cycle_count` and return. -/
theorem run_release (m : Nat) (s : State) :
    ∀ j, j ≤ m →
      (∀ i, i < j → (s.procs i).pc = .l49 ∧ (s.procs i).local_cycle ≠ s.shared.cycle_count) →
      (run m s (List.range j)).shared = s.shared ∧
      (∀ i, i < j → (run m s (List.range j)).procs i =
        { s.procs i with pc := .idle, calls := (s.procs i).calls + 1 }) ∧
      (∀ i, j ≤ i → (run m s (List.range j)).procs i = s.procs i) := by
  intro j
  induction j with
  | zero =>
    intro _ _
    refine ⟨by simp [run], fun i hi => by omega, fun i _ => by simp [run]⟩
  | succ j ih =>
    intro hj hw
    obtain ⟨h1, h2, h3⟩ := ih (by omega) (fun i hi => hw i (by omega))
    have hstep : run m s (List.range (j + 1)) = step m (run m s (List.range j)) j := by
      simp [List.range_succ, run]
    have hjm : j < m := by omega
    obtain ⟨hpc, hlc⟩ := hw j (by omega)
    have hne : ¬ (s.shared.cycle_count = (s.procs j).local_cycle) := fun h => hlc h.symm
    rw [hstep]
    refine ⟨?_, fun i hi => ?_, fun i hi => ?_⟩
    · rw [step_shared m _ j hjm, h1, h3 j (le_refl j)]
      simp [wall_use_step, hpc, hne]
    · rw [step_procs m _ j i hjm]
      by_cases hij : i = j
      · subst hij
        rw [if_pos rfl, h1, h3 i (le_refl i)]
        simp [wall_use_step, hpc, hne]
      · rw [if_neg hij]; exact h2 i (by omega)
    · rw [step_procs m _ j i hjm]
      have hij : i ≠ j := by omega
      rw [if_neg hij]; exact h3 i (by omega)

/-- One full cycle in rank order from a state in which `*barrier` is zero
and every rank is outside of `wall_use`: all `m` calls return, `*barrier`
is zero again and `*cycle_count` has been incremented once. -/
theorem run_cycle (m : Nat) (hm : 2 ≤ m) (hmax : (m : Int) ≤ INT_MAX) (g : Int) (s0 : State)
    (hs : s0.shared = ⟨0, g⟩) (hidle : ∀ i, i < m → (s0.procs i).pc = .idle) :
    (run m s0 (cycleSched m)).shared = ⟨0, wrap32 (g + 1)⟩ ∧
    ∀ i, i < m → ((run m s0 (cycleSched m)).procs i).pc = .idle ∧
      ((run m s0 (cycleSched m)).procs i).calls = (s0.procs i).calls + 1 ∧
      ((run m s0 (cycleSched m)).procs i).incs = (s0.procs i).incs + 1 := by
  obtain ⟨a1, a2, a3⟩ := run_arrivals m hmax g s0 hs hidle (m - 1) (by omega)
  -- the state after the arrival, reset, advance and return of the last rank
  have hlast : run m (run m s0 ((List.range (m - 1)).map arriveSched).flatten) (lastSched m) =
      { shared := ⟨0, wrap32 (g + 1)⟩,
        procs := Function.update
          (run m s0 ((List.range (m - 1)).map arriveSched).flatten).procs (m - 1)
          { s0.procs (m - 1) with
            pc := .idle
            local_cycle := g
            tmp := g
            incs := (s0.procs (m - 1)).incs + 1
            calls := (s0.procs (m - 1)).calls + 1 } } := by
    rw [lastSched, run_replicate m (m - 1) (by omega), a1, a3 (m - 1) (le_refl _),
      iterStep_last m (m - 1) (by omega) hm hmax g _ (hidle (m - 1) (by omega))]
  have hwait : ∀ i, i < m - 1 →
      ((run m (run m s0 ((List.range (m - 1)).map arriveSched).flatten) (lastSched m)).procs i).pc
          = .l49 ∧
      ((run m (run m s0 ((List.range (m - 1)).map arriveSched).flatten) (lastSched m)).procs
          i).local_cycle ≠
        (run m (run m s0 ((List.range (m - 1)).map arriveSched).flatten)
          (lastSched m)).shared.cycle_count := by
    intro i hi
    have hne : i ≠ m - 1 := by omega
    rw [hlast]
    simp only [Function.update_noteq hne, a2 i hi]
    exact ⟨trivial, fun h => wrap32_succ_ne g h.symm⟩
  obtain ⟨r1, r2, r3⟩ := run_release m _ (m - 1) (by omega) hwait
  have hsched : cycleSched m =
      ((List.range (m - 1)).map arriveSched).flatten ++ (lastSched m ++ List.range (m - 1)) := by
    simp [cycleSched]
  rw [hsched, run_append, run_append]
  refine ⟨by rw [r1, hlast], fun i hi => ?_⟩
  by_cases hil : i < m - 1
  · have hne : i ≠ m - 1 := by omega
    rw [r2 i hil, hlast]
    simp only [Function.update_noteq hne, a2 i hil]
    exact ⟨trivial, trivial, trivial⟩
  · have hil2 : i = m - 1 := by omega
    subst hil2
    rw [r3 (m - 1) (le_refl _), hlast]
    simp

/-- The effect of `k` full cycles, as long as `*cycle_count` does not
overflow. -/
theorem run_cycles (m : Nat) (hm : 2 ≤ m) (hmax : (m : Int) ≤ INT_MAX) :
    ∀ (k : Nat) (g : Int) (s0 : State), s0.shared = ⟨0, g⟩ →
      (∀ i, i < m → (s0.procs i).pc = .idle) → INT_MIN ≤ g → g + (k : Int) ≤ INT_MAX →
      (run m s0 (cyclesSched m k)).shared = ⟨0, g + (k : Int)⟩ ∧
      ∀ i, i < m → ((run m s0 (cyclesSched m k)).procs i).pc = .idle ∧
        ((run m s0 (cyclesSched m k)).procs i).calls = (s0.procs i).calls + k := by
  intro k
  induction k with
  | zero =>
    intro g s0 hs hidle _ _
    refine ⟨by simpa [cyclesSched, run] using hs, fun i hi => ?_⟩
    simpa [cyclesSched, run] using hidle i hi
  | succ k ih =>
    intro g s0 hs hidle hg1 hg2
    obtain ⟨c1, c2⟩ := run_cycle m hm hmax g s0 hs hidle
    have hw : wrap32 (g + 1) = g + 1 := by
      simp only [INT_MIN, INT_MAX] at hg1 hg2
      exact wrap32_id _ (by omega) (by omega)
    rw [hw] at c1
    have hg1' : INT_MIN ≤ g + 1 := by simp only [INT_MIN] at *; omega
    have hg2' : g + 1 + (k : Int) ≤ INT_MAX := by push_cast at hg2; omega
    obtain ⟨d1, d2⟩ := ih (g + 1) (run m s0 (cycleSched m)) c1 (fun i hi => (c2 i hi).1) hg1' hg2'
    have hsched : cyclesSched m (k + 1) = cycleSched m ++ cyclesSched m k := rfl
    rw [hsched, run_append]
    refine ⟨?_, fun i hi => ?_⟩
    · rw [d1]; push_cast; congr 1; omega
    · obtain ⟨e1, e2⟩ := d2 i hi
      refine ⟨e1, ?_⟩
      rw [e2, (c2 i hi).2.1]; omega

end MySum

namespace MySum

/-- From the zero-initialised block the two-process system reaches, after
2147483647 full cycles, a state in which `*cycle_count` is `INT_MAX` and the
next store of rank 1 wraps it to `INT_MIN`. -/
theorem lateState_overflow :
    Reachable 2 0 lateState ∧ lateState.shared.cycle_count = 2147483647 ∧
      (step 2 lateState 1).shared.cycle_count = -2147483648 := by
  obtain ⟨c1, c2⟩ := run_cycles 2 (by decide) (by decide) 2147483647 0 (init 0) rfl
    (fun _ _ => rfl) (by decide) (by decide)
  have hg : (0 : Int) + ((2147483647 : Nat) : Int) = 2147483647 := by norm_num
  rw [hg] at c1
  obtain ⟨a1, _, a3⟩ := run_arrivals 2 (by decide) 2147483647
    (run 2 (init 0) (cyclesSched 2 2147483647)) c1 (fun i hi => (c2 i hi).1) 1 (by decide)
  have hsched : ((List.range 1).map arriveSched).flatten = arriveSched 0 := by
    simp [List.range_succ]
  rw [hsched] at a1 a3
  have hidle1 : ((run 2 (run 2 (init 0) (cyclesSched 2 2147483647)) (arriveSched 0)).procs 1).pc
      = .idle := by
    rw [a3 1 (le_refl 1)]; exact (c2 1 (by decide)).1
  have hlate : lateState = run 2 (run 2 (run 2 (init 0) (cyclesSched 2 2147483647))
      (arriveSched 0)) (List.replicate 8 1) := by
    rw [lateState, run_append, run_append]
  have hst := run_replicate 2 1 (by decide) 8
    (run 2 (run 2 (init 0) (cyclesSched 2 2147483647)) (arriveSched 0))
  rw [a1] at hst
  have hit := iterStep_advance 2 1 rfl (by decide) (by decide) 2147483647 _ hidle1
  simp only [Nat.cast_one, Nat.cast_ofNat] at hit hst
  rw [hit] at hst
  refine ⟨⟨_, rfl⟩, ?_, ?_⟩
  · rw [hlate, hst]
  · rw [step_shared 2 _ 1 (by decide), hlate, hst]
    simp [wall_use_step]
    decide

/-! ## Lemmas: the released cycles and the value of `*cycle_count` -/

/-- A step keeps the invariant together with the fact that `*cycle_count` is
the initial value advanced once per released cycle. -/
theorem inv_step_gen (m c : Nat) (s : State) (i : Nat) (hm : 2 ≤ m)
    (hmax : (m : Int) ≤ INT_MAX) (g : Int) (h : Inv m c s)
    (hG : s.shared.cycle_count = wrap32 (g + (c : Int))) :
    ∃ c', c ≤ c' ∧ Inv m c' (step m s i) ∧
      (step m s i).shared.cycle_count = wrap32 (g + (c' : Int)) := by
  have h1 := inv_step m c s i hm hmax h
  by_cases hi : i < m
  · rcases step_effect m c s i hmax h hi with e | e | e | e
    · have hne : ¬ (i < m ∧ (s.procs i).pc = .l45w) := by rw [e.1]; simp
      rw [if_neg hne] at h1
      exact ⟨c, le_refl c, h1, by rw [e.2.2]; exact hG⟩
    · have hne : ¬ (i < m ∧ (s.procs i).pc = .l45w) := by rw [e.1]; simp
      rw [if_neg hne] at h1
      exact ⟨c, le_refl c, h1, by rw [e.2.2.2]; exact hG⟩
    · rw [if_pos ⟨hi, e.1⟩] at h1
      refine ⟨c + 1, by omega, h1, ?_⟩
      rw [e.2.2.2]
      simp only [hG, wrap32]
      push_cast
      omega
    · have hne : ¬ (i < m ∧ (s.procs i).pc = .l45w) := by
        intro hh
        have := e.1
        rw [hh.2] at this
        simp [PC.writes] at this
      rw [if_neg hne] at h1
      exact ⟨c, le_refl c, h1, by rw [e.2]; exact hG⟩
  · have hne : ¬ (i < m ∧ (s.procs i).pc = .l45w) := fun hh => hi hh.1
    rw [if_neg hne] at h1
    refine ⟨c, le_refl c, h1, ?_⟩
    have : step m s i = s := by simp [step, hi]
    rw [this]; exact hG

theorem inv_run_gen (m : Nat) (hm : 2 ≤ m) (hmax : (m : Int) ≤ INT_MAX) (g : Int)
    (sched : List Nat) :
    ∀ (c : Nat) (s : State), Inv m c s → s.shared.cycle_count = wrap32 (g + (c : Int)) →
      ∃ c', c ≤ c' ∧ Inv m c' (run m s sched) ∧
        (run m s sched).shared.cycle_count = wrap32 (g + (c' : Int)) := by
  induction sched with
  | nil => intro c s h hG; exact ⟨c, le_refl c, h, hG⟩
  | cons i rest ih =>
    intro c s h hG
    obtain ⟨c1, hc1, hinv1, hG1⟩ := inv_step_gen m c s i hm hmax g h hG
    obtain ⟨c2, hc2, hinv2, hG2⟩ := ih c1 _ hinv1 hG1
    exact ⟨c2, by omega, by simpa [run] using hinv2, by simpa [run] using hG2⟩

/-- In a state of the invariant in which every rank is outside of `wall_use`
with `k` returned calls, exactly `k` cycles have been released and
`*barrier` is zero. -/
theorem returned_state (m c k : Nat) (s : State) (hm : 2 ≤ m) (hinv : Inv m c s)
    (hret : ∀ i, i < m → (s.procs i).pc = .idle ∧ (s.procs i).calls = k) :
    c = k ∧ s.shared.barrier = 0 := by
  have hincs : ∀ i, i < m → (s.procs i).incs = k := by
    intro i hi
    have h := (hinv.loc i hi).incs_eq
    simp [(hret i hi).1, PC.arrived] at h
    rw [h, (hret i hi).2]
  have hck : c = k := by
    have h1 := (hinv.loc 0 (by omega)).calls_le
    have h2 := (hinv.loc 0 (by omega)).le_incs
    have h3 := hincs 0 (by omega)
    have h4 := (hret 0 (by omega)).2
    omega
  refine ⟨hck, ?_⟩
  obtain ⟨hA0, _, hpre⟩ :=
    hinv.opened (by simp [(hret (m - 1) (by omega)).1, PC.closing])
  by_contra hne
  have := (hpre 0 (by omega)).1 (by simp; omega)
  have := hincs 0 (by omega)
  omega

/-- Under every schedule from `arrivals = 0` and `generation = g`: when every
rank has returned from `k` calls and is outside of `wall_use`, `*barrier`
is zero and `*cycle_count` is `g` advanced `k` times. -/
theorem returned_shared (m k : Nat) (g : Int) (hm : 2 ≤ m) (hmax : (m : Int) ≤ INT_MAX)
    (hg1 : INT_MIN ≤ g) (hg2 : g ≤ INT_MAX) (sched : List Nat)
    (hret : ∀ i, i < m → ((run m (init g) sched).procs i).pc = .idle ∧
      ((run m (init g) sched).procs i).calls = k) :
    (run m (init g) sched).shared = ⟨0, wrap32 (g + (k : Int))⟩ := by
  have h0 : (init g).shared.cycle_count = wrap32 (g + ((0 : Nat) : Int)) := by
    simp only [INT_MIN, INT_MAX] at hg1 hg2
    simp only [init, Nat.cast_zero, add_zero]
    exact (wrap32_id g hg1 hg2).symm
  obtain ⟨c, _, hinv, hG⟩ := inv_run_gen m hm hmax g sched 0 (init g) (inv_init m g) h0
  obtain ⟨hck, hA⟩ := returned_state m c k _ hm hinv hret
  subst hck
  cases hsh : (run m (init g) sched).shared with
  | mk b cc =>
    rw [hsh] at hA hG
    simp only at hA hG
    rw [hA, hG]

/-! ## Lemmas: progress -/

end MySum

namespace MySum

/-! ## The properties -/

/-- C1 (barrier safety): with `m ≥ 2` processes of the ranks `0 .. m-1`,
in every state that some interleaving of their atomic steps reaches from a
block with `arrivals = 0`, a rank `i` that has returned from its `c`-th call
(`c ≤ calls i`) implies that every rank `j` has executed the store of
`(*barrier)++` at least `c` times; a process executes that store exactly once
in each call, so this is the store of its own `c`-th call. -/
theorem wall_use_barrier_safety (m : Nat) (g : Int) (s : State) (hm : 2 ≤ m)
    (hmax : (m : Int) ≤ INT_MAX) (hs : Reachable m g s) (i j c : Nat) (hi : i < m)
    (hj : j < m) (hc : c ≤ (s.procs i).calls) :
    c ≤ (s.procs j).incs ∧
      (s.procs j).incs = (s.procs j).calls + (if (s.procs j).pc.arrived = true then 1 else 0) := by
  obtain ⟨c', hinv⟩ := inv_of_reachable m g s hm hmax hs
  have h1 := (hinv.loc i hi).calls_le
  have h2 := (hinv.loc j hj).le_incs
  exact ⟨by omega, (hinv.loc j hj).incs_eq⟩

/-- Witness of C1: after one full cycle of two processes, rank 0 has returned
from its first call and rank 1 has executed its first arrival. -/
theorem wall_use_barrier_safety_witness :
    1 ≤ ((run 2 (init 0) (cycleSched 2)).procs 0).calls ∧
      1 ≤ ((run 2 (init 0) (cycleSched 2)).procs 1).incs :=
  ⟨by decide,
    (wall_use_barrier_safety 2 0 (run 2 (init 0) (cycleSched 2)) (by decide) (by decide)
      ⟨cycleSched 2, rfl⟩ 0 1 1 (by decide) (by decide) (by decide)).1⟩

/-- C5 (arrival count): with `m ≥ 2`, in every state reachable from
`arrivals = 0` the cell `*barrier` is between `0` and `m`, and a step of any
rank `i` leaves it alone, or is the arrival of rank `i` and raises it from
`i` to `i + 1 ≤ m`, or is the reset by rank `m - 1` from `m` to `0`. -/
theorem arrivals_bounded (m : Nat) (g : Int) (s : State) (hm : 2 ≤ m)
    (hmax : (m : Int) ≤ INT_MAX) (hs : Reachable m g s) :
    0 ≤ s.shared.barrier ∧ s.shared.barrier ≤ (m : Int) ∧
    ∀ i, i < m →
      ((step m s i).shared.barrier = s.shared.barrier ∨
       ((step m s i).shared.barrier = s.shared.barrier + 1 ∧ s.shared.barrier = (i : Int) ∧
          ((step m s i).procs i).incs = (s.procs i).incs + 1) ∨
       ((step m s i).shared.barrier = 0 ∧ s.shared.barrier = (m : Int) ∧ i + 1 = m)) := by
  obtain ⟨c, hinv⟩ := inv_of_reachable m g s hm hmax hs
  have hrange : 0 ≤ s.shared.barrier ∧ s.shared.barrier ≤ (m : Int) := by
    cases hcl : (s.procs (m - 1)).pc.closing
    · have := hinv.opened hcl; exact ⟨this.1, this.2.1⟩
    · have := (hinv.closing hcl).1; omega
  refine ⟨hrange.1, hrange.2, fun i hi => ?_⟩
  rcases step_effect m c s i hmax hinv hi with h | h | h | h
  · right; left
    refine ⟨by rw [h.2.2], h.2.1, ?_⟩
    rw [step_procs m s i i hi]
    simp [wall_use_step, h.1]
  · right; right
    exact ⟨by rw [h.2.2.2], h.2.2.1, h.2.1⟩
  · left; rw [h.2.2.2]
  · left; rw [h.2]

/-- Witness of C5: the state in which rank 0 of two is about to store its
arrival. -/
theorem arrivals_bounded_witness :
    0 ≤ storeState.shared.barrier ∧ storeState.shared.barrier ≤ ((2 : Nat) : Int) ∧
    ∀ i, i < 2 →
      ((step 2 storeState i).shared.barrier = storeState.shared.barrier ∨
       ((step 2 storeState i).shared.barrier = storeState.shared.barrier + 1 ∧
          storeState.shared.barrier = (i : Int) ∧
          ((step 2 storeState i).procs i).incs = (storeState.procs i).incs + 1) ∨
       ((step 2 storeState i).shared.barrier = 0 ∧
          storeState.shared.barrier = ((2 : Nat) : Int) ∧ i + 1 = 2)) :=
  arrivals_bounded 2 0 storeState (by decide) (by decide) ⟨[0, 0, 0, 0], rfl⟩

/-- C7 (single writer): with `m ≥ 2`, in every state reachable from
`arrivals = 0` at most one rank is between its passed turn check and the end
of its stores; and at the store of `(*barrier)++` the value loaded before is
still the value of `*barrier`, so the store raises `*barrier` by one: no
update is lost. -/
theorem single_writer (m : Nat) (g : Int) (s : State) (hm : 2 ≤ m)
    (hmax : (m : Int) ≤ INT_MAX) (hs : Reachable m g s) (i j : Nat) (hi : i < m) (hj : j < m)
    (hwi : isWriter m i (s.procs i).pc = true) (hwj : isWriter m j (s.procs j).pc = true) :
    i = j ∧
    ((s.procs i).pc = .l40w → (s.procs i).tmp = s.shared.barrier ∧
      (step m s i).shared.barrier = s.shared.barrier + 1) ∧
    ((s.procs i).pc = .l45w → (s.procs i).tmp = s.shared.cycle_count) := by
  obtain ⟨c, hinv⟩ := inv_of_reachable m g s hm hmax hs
  have hpi := hinv.loc i hi
  have hpj := hinv.loc j hj
  refine ⟨?_, fun h40 => ⟨hpi.tmp_b h40, ?_⟩, hpi.tmp_c⟩
  · -- a writer of the first kind sees `*barrier = rank` and has not arrived;
    -- a writer of the second kind is the last rank and has arrived
    have key : ∀ a b, a < m → b < m → (s.procs a).pc.crit = true →
        (b + 1 = m ∧ (s.procs b).pc.sealing = true) → a = b := by
      intro a b ha hb hca hsb
      have hpa := hinv.loc a ha
      have hpb := hinv.loc b hb
      have hA := hpa.crit hca
      have hia := hpa.incs_eq
      have hib := hpb.incs_eq
      have hcb := hpb.last_calls hsb.1 hsb.2
      have hla := hpa.calls_le
      have hmb : m - 1 = b := by omega
      have harr_a : (s.procs a).pc.arrived = false := by
        cases hpc : (s.procs a).pc <;> simp_all [PC.crit, PC.arrived]
      have harr_b : (s.procs b).pc.arrived = true := by
        cases hpc : (s.procs b).pc <;> simp_all [PC.sealing, PC.arrived]
      simp [harr_a] at hia
      simp [harr_b] at hib
      cases hcl : (s.procs (m - 1)).pc.closing
      · obtain ⟨_, _, hpre⟩ := hinv.opened hcl
        have h1 := (hpre b hb).2
        have : ¬ (s.shared.barrier ≤ (b : Int)) := fun hle => by have := h1 hle; omega
        omega
      · have := (hinv.closing hcl).2 a ha
        omega
    simp only [isWriter, Bool.or_eq_true, Bool.and_eq_true, decide_eq_true_eq] at hwi hwj
    rcases hwi with hwi | hwi <;> rcases hwj with hwj | hwj
    · have h1 := hpi.crit hwi
      have h2 := hpj.crit hwj
      omega
    · exact key i j hi hj hwi hwj
    · exact (key j i hj hi hwj hwi).symm
    · omega
  · rcases step_effect m c s i hmax hinv hi with h | h | h | h
    · rw [h.2.2]
    · rw [h.1] at h40; cases h40
    · rw [h.1] at h40; cases h40
    · rw [h40] at h; simp [PC.writes] at h

/-- Witness of C7: rank 0 of two at the store of its arrival. -/
theorem single_writer_witness :
    (0 : Nat) = 0 ∧
    ((storeState.procs 0).pc = .l40w → (storeState.procs 0).tmp = storeState.shared.barrier ∧
      (step 2 storeState 0).shared.barrier = storeState.shared.barrier + 1) ∧
    ((storeState.procs 0).pc = .l45w → (storeState.procs 0).tmp = storeState.shared.cycle_count) :=
  single_writer 2 0 storeState (by decide) (by decide) ⟨[0, 0, 0, 0], rfl⟩ 0 0
    (by decide) (by decide) (by decide) (by decide)

end MySum

namespace MySum

/-- C4 (out-of-order calls block): with `m ≥ 2`, in every reachable state, a
rank `r` that is in the loop `while (*barrier != process_number)` or before
it (it has not yet arrived in its current call) and does not see
`*barrier = r` writes nothing with its next step: the shared block and its
arrival counter stay as they are, and a polling process keeps polling.
The store of its arrival is executed only in a state with `*barrier = r`, in
which every lower rank has executed one arrival more than `r`, that is, its
arrival of the same cycle; the store then sets `*barrier` to `r + 1`.
The only other steps of a rank that change the shared block are the reset
and the advance by rank `m - 1` after its own arrival. -/
theorem out_of_order_blocks (m : Nat) (g : Int) (s : State) (hm : 2 ≤ m)
    (hmax : (m : Int) ≤ INT_MAX) (hs : Reachable m g s) (r : Nat) (hr : r < m) :
    ((s.procs r).pc.arrived = false → s.shared.barrier ≠ (r : Int) →
      (step m s r).shared = s.shared ∧
      ((step m s r).procs r).incs = (s.procs r).incs ∧
      ((step m s r).procs r).pc.arrived = false ∧
      ((s.procs r).pc = .l36 → ((step m s r).procs r).pc = .l36)) ∧
    ((s.procs r).pc = .l40w →
      s.shared.barrier = (r : Int) ∧
      (∀ j, j < r → (s.procs j).incs = (s.procs r).incs + 1) ∧
      (step m s r).shared = ⟨(r : Int) + 1, s.shared.cycle_count⟩) ∧
    ((step m s r).shared ≠ s.shared →
      ((s.procs r).pc = .l40w ∧ s.shared.barrier = (r : Int)) ∨
      (r + 1 = m ∧ (s.procs r).pc.arrived = true ∧
        ((s.procs r).pc = .l44 ∨ (s.procs r).pc = .l45w))) := by
  obtain ⟨c, hinv⟩ := inv_of_reachable m g s hm hmax hs
  have hp := hinv.loc r hr
  refine ⟨?_, ?_, ?_⟩
  rotate_left 2
  · intro hchg
    rcases step_effect m c s r hmax hinv hr with h | h | h | h
    · exact Or.inl ⟨h.1, h.2.1⟩
    · exact Or.inr ⟨h.2.1, by simp [h.1, PC.arrived], Or.inl h.1⟩
    · exact Or.inr ⟨h.2.1, by simp [h.1, PC.arrived], Or.inr h.1⟩
    · exact absurd h.2 hchg
  · intro harr hne
    have hncrit : (s.procs r).pc.crit = false := by
      by_contra hcr
      exact hne (hp.crit (by simpa using hcr))
    rw [step_shared m s r hr, step_procs m s r r hr]
    have hm1 : (m : Int) ≠ 1 := by omega
    cases hpc : (s.procs r).pc <;> simp [hpc, PC.arrived, PC.crit] at harr hncrit <;>
      simp [wall_use_step, hpc, hne, hm1, PC.arrived]
  · intro h40
    have hbar := hp.crit (by simp [h40, PC.crit])
    have hincs := hp.incs_eq
    simp [h40, PC.arrived] at hincs
    have hnc : (s.procs (m - 1)).pc.closing = false := by
      by_contra hcl
      have := (hinv.closing (by simpa using hcl)).2 r hr
      have := hp.calls_le
      omega
    obtain ⟨_, _, hpre⟩ := hinv.opened hnc
    refine ⟨hbar, fun j hj => ?_, ?_⟩
    · have h1 := (hpre j (by omega)).1 (by omega)
      have h2 := (hpre r hr).2 (by omega)
      omega
    · rcases step_effect m c s r hmax hinv hr with h | h | h | h
      · rw [h.2.2, hbar]
      · rw [h.1] at h40; cases h40
      · rw [h.1] at h40; cases h40
      · rw [h40] at h; simp [PC.writes] at h

/-- Witness of C4, scenario B (`m = 3`, call order 0, 2, 1): rank 0 has
arrived, rank 2 is polling and rank 1 has not called yet; the next step of
rank 2 writes nothing and leaves it polling. -/
theorem out_of_order_blocks_witness :
    (scenarioB.procs 2).pc = .l36 ∧ scenarioB.shared.barrier = 1 ∧
    (step 3 scenarioB 2).shared = scenarioB.shared ∧
    ((step 3 scenarioB 2).procs 2).incs = (scenarioB.procs 2).incs ∧
    ((step 3 scenarioB 2).procs 2).pc.arrived = false ∧
    ((scenarioB.procs 2).pc = .l36 → ((step 3 scenarioB 2).procs 2).pc = .l36) :=
  ⟨by decide, by decide,
    (out_of_order_blocks 3 0 scenarioB (by decide) (by decide)
      ⟨arriveSched 0 ++ [2, 2, 2, 2, 2], rfl⟩ 2 (by decide)).1 (by decide) (by decide)⟩

/-- C6 as it stands fails when `generation` is `INT_MAX`: the store of
`(*cycle_count)++` by rank 1 of two takes `*cycle_count` from 2147483647 to
-2147483648, which is neither the old value nor the old value plus one.
Such a state is reached from a block with `generation = INT_MAX`, and also
from the zero-initialised block after 2147483647 full cycles. -/
theorem generation_step_overflow :
    (Reachable 2 2147483647 overflowState ∧
      overflowState.shared.cycle_count = 2147483647 ∧
      (step 2 overflowState 1).shared.cycle_count = -2147483648 ∧
      ¬ ((step 2 overflowState 1).shared.cycle_count = overflowState.shared.cycle_count ∨
        (step 2 overflowState 1).shared.cycle_count = overflowState.shared.cycle_count + 1)) ∧
    (Reachable 2 0 lateState ∧
      ¬ ((step 2 lateState 1).shared.cycle_count = lateState.shared.cycle_count ∨
        (step 2 lateState 1).shared.cycle_count = lateState.shared.cycle_count + 1)) := by
  refine ⟨⟨⟨arriveSched 0 ++ List.replicate 8 1, rfl⟩, by decide, by decide, by decide⟩,
    lateState_overflow.1, ?_⟩
  rw [lateState_overflow.2.1, lateState_overflow.2.2]
  decide

/-- C6 amended (generation step): with `m ≥ 2`, in every state reachable from
`arrivals = 0`, a step of any rank leaves `*cycle_count` unchanged or is the
store of `(*cycle_count)++` by rank `m - 1`, made after that rank has reset
`*barrier` to `0`, and stores the incremented `int`; where `generation` is
below `INT_MAX` that is a raise by exactly one. No step of another rank ever
changes `*cycle_count`, and a rank takes its turn (it is between turn check
and arrival store) only with `*barrier` equal to its rank, `m - 1` for the
last one. -/
theorem generation_step (m : Nat) (g : Int) (s : State) (hm : 2 ≤ m)
    (hmax : (m : Int) ≤ INT_MAX) (hs : Reachable m g s) (i : Nat) (hi : i < m) :
    ((step m s i).shared.cycle_count = s.shared.cycle_count ∨
      ((step m s i).shared.cycle_count = wrap32 (s.shared.cycle_count + 1) ∧ i + 1 = m ∧
        (s.procs i).pc = .l45w ∧ s.shared.barrier = 0 ∧ (step m s i).shared.barrier = 0)) ∧
    (INT_MIN ≤ g → g ≤ INT_MAX → s.shared.cycle_count < INT_MAX →
      ((step m s i).shared.cycle_count = s.shared.cycle_count ∨
        ((step m s i).shared.cycle_count = s.shared.cycle_count + 1 ∧ i + 1 = m ∧
          (s.procs i).pc = .l45w ∧ s.shared.barrier = 0 ∧
          (step m s i).shared.barrier = 0))) ∧
    (i + 1 ≠ m → (step m s i).shared.cycle_count = s.shared.cycle_count) ∧
    ((s.procs i).pc.crit = true → s.shared.barrier = (i : Int)) := by
  obtain ⟨c, hinv⟩ := inv_of_reachable m g s hm hmax hs
  have hstep : (step m s i).shared.cycle_count = s.shared.cycle_count ∨
      ((step m s i).shared.cycle_count = wrap32 (s.shared.cycle_count + 1) ∧ i + 1 = m ∧
        (s.procs i).pc = .l45w ∧ s.shared.barrier = 0 ∧ (step m s i).shared.barrier = 0) := by
    rcases step_effect m c s i hmax hinv hi with h | h | h | h
    · left; rw [h.2.2]
    · left; rw [h.2.2.2]
    · right; rw [h.2.2.2]; exact ⟨rfl, h.2.1, h.1, h.2.2.1, h.2.2.1⟩
    · left; rw [h.2]
  refine ⟨hstep, ?_, ?_, (hinv.loc i hi).crit⟩
  · intro hg1 hg2 hG
    have hrange : INT_MIN ≤ s.shared.cycle_count := by
      obtain ⟨sched, rfl⟩ := hs
      exact (cycle_count_range m g hg1 hg2 sched).1
    have hw : wrap32 (s.shared.cycle_count + 1) = s.shared.cycle_count + 1 := by
      simp only [INT_MIN, INT_MAX] at hrange hG
      exact wrap32_id _ (by omega) (by omega)
    rcases hstep with h | h
    · exact Or.inl h
    · exact Or.inr ⟨by rw [h.1, hw], h.2⟩
  · intro hne
    rcases hstep with h | h
    · exact h
    · exact absurd h.2.1 hne

/-- Witness of C6 amended: two processes from `generation = 0`, rank 1 at the
store of `(*cycle_count)++`: the store raises `*cycle_count` from 0 to 1. -/
theorem generation_step_witness :
    advanceState.shared.cycle_count = 0 ∧
    (step 2 advanceState 1).shared.cycle_count = 1 ∧
    ((step 2 advanceState 1).shared.cycle_count = advanceState.shared.cycle_count ∨
      ((step 2 advanceState 1).shared.cycle_count = advanceState.shared.cycle_count + 1 ∧
        1 + 1 = 2 ∧ (advanceState.procs 1).pc = .l45w ∧ advanceState.shared.barrier = 0 ∧
        (step 2 advanceState 1).shared.barrier = 0)) :=
  ⟨by decide, by decide,
    (generation_step 2 0 advanceState (by decide) (by decide)
      ⟨arriveSched 0 ++ List.replicate 8 1, rfl⟩ 1 (by decide)).2.1
      (by decide) (by decide) (by decide)⟩

/-- C3 (single participant): with `m = 1`, for every rank argument, every
content of the shared block and every private state, a call of `wall_use`
returns with its first step, the test `m == 1`: that step is not an iteration
of a polling loop, the shared block is unchanged, and of the private state
only the count of returned calls changes (nothing was slept). -/
theorem single_participant_noop (fuel : Nat) (process_number : Int) (sh : Shared) (l : Local) :
    wall_use (fuel + 1) 1 process_number sh { l with pc := .idle }
        = some (sh, { l with pc := .idle, calls := l.calls + 1 }) ∧
      isWaiting process_number sh { l with pc := .idle } = false ∧
      wall_use_step 1 process_number sh { l with pc := .idle }
        = (sh, { l with pc := .idle, calls := l.calls + 1 }) := by
  refine ⟨?_, rfl, ?_⟩
  · simp [wall_use, wall_use_step]
  · simp [wall_use_step]

/-- C9 (validated worker count): `validate_n_m` returns exactly when
`0 < n ≤ MAX_N` and `0 < m`; the value it returns is `min m n`, which is at
least 1 and at most `n ≤ 10000000`; in every other case it exits. -/
theorem validate_n_m_result (available_cores n m : Int) :
    (0 < n ∧ n ≤ MAX_N ∧ 0 < m →
      ∃ w, validate_n_m available_cores n m = .ok (min m n, w) ∧
        1 ≤ min m n ∧ min m n ≤ n ∧ n ≤ 10000000) ∧
    (¬ (0 < n ∧ n ≤ MAX_N ∧ 0 < m) → ∃ e, validate_n_m available_cores n m = .error e) ∧
    (∀ r w, validate_n_m available_cores n m = .ok (r, w) →
      r = min m n ∧ 1 ≤ r ∧ r ≤ n ∧ n ≤ MAX_N ∧ MAX_N = 10000000) := by
  have hmin : ∀ a b : Int, (if a > b then b else a) = min a b := by
    intro a b; split_ifs <;> omega
  refine ⟨?_, ?_, ?_⟩
  · rintro ⟨h1, h2, h3⟩
    have hc1 : ¬ (n ≤ 0 ∨ m ≤ 0) := by omega
    have hc2 : ¬ (n > MAX_N) := by omega
    refine ⟨(if m > n then [Warning.m_exceeds_n] else []) ++
      (if min m n > available_cores then [Warning.m_exceeds_cores] else []), ?_,
      by omega, by omega, by simpa [MAX_N] using h2⟩
    simp only [validate_n_m, hc1, hc2, if_false, hmin]
  · intro h
    by_cases hc1 : n ≤ 0 ∨ m ≤ 0
    · exact ⟨.not_positive, by simp only [validate_n_m, hc1, if_true]⟩
    · have hc2 : n > MAX_N := by
        by_contra hc2
        exact h ⟨by omega, by omega, by omega⟩
      exact ⟨.too_large, by simp only [validate_n_m, hc1, hc2, if_true, if_false]⟩
  · intro r w h
    by_cases hc1 : n ≤ 0 ∨ m ≤ 0
    · simp [validate_n_m, hc1] at h
    · by_cases hc2 : n > MAX_N
      · simp [validate_n_m, hc1, hc2] at h
      · simp only [validate_n_m, hc1, hc2, if_false, hmin, Except.ok.injEq, Prod.mk.injEq] at h
        refine ⟨h.1.symm, ?_, ?_, by omega, rfl⟩ <;> rw [← h.1] <;> omega

/-- C10, the code at the failing input: `std::stoi` reads the leading digits
of "5abc" and of "3.7" and throws nothing, so `validate_arguments` does not
exit with "n and m must be integer values": it stores `n = 5` and `m = 3` and,
on a machine with good files, returns 3. -/
theorem validate_arguments_accepts_trailing_text :
    stoi "5abc" = .ok 5 ∧ stoi "3.7" = .ok 3 ∧
    validate_arguments Env.plain ["my-sum", "5abc", "3.7", "in.txt", "out.txt"]
      = .ok { ret := 3, n := 5, m := 3, input_file := "in.txt", output_file := "out.txt" } ∧
    ∀ env : Env,
      validate_arguments env ["my-sum", "5abc", "3.7", "in.txt", "out.txt"]
        ≠ .error .not_integer := by
  have h1 : stoi "5abc" = .ok 5 := rfl
  have h2 : stoi "3.7" = .ok 3 := rfl
  refine ⟨h1, h2, rfl, fun env => ?_⟩
  simp only [validate_arguments, h1, h2]
  have h3 : validate_n_m env.available_cores 5 3 =
      .ok (3, if (3 : Int) > env.available_cores then [Warning.m_exceeds_cores] else []) := by
    simp [validate_n_m, MAX_N]
  rw [h3]
  simp only
  cases hio : validate_io_files env "in.txt" "out.txt" with
  | error e =>
    simp only
    intro hcontra
    have he : e = .not_integer := by simpa using hcontra
    subst he
    unfold validate_io_files at hio
    split_ifs at hio <;> simp at hio
  | ok u =>
    cases hx : exists_and_enough_numbers env 5 "in.txt" with
    | mk a b => cases a <;> cases b <;> simp

end MySum

namespace MySum

/-- C2 as it stands fails when `generation` starts at `INT_MAX`: one full
cycle of two processes leaves `*cycle_count` at -2147483648, not at
`g + 1 = 2147483648`, which is no `int` value. -/
theorem full_cycles_overflow :
    (init 2147483647).shared = ⟨0, 2147483647⟩ ∧
    (run 2 (init 2147483647) (cyclesSched 2 1)).shared = ⟨0, -2147483648⟩ ∧
    (run 2 (init 2147483647) (cyclesSched 2 1)).shared.cycle_count ≠ 2147483647 + 1 :=
  ⟨rfl, by decide, by decide⟩

/-- C2 amended (reusable full cycles): for `m ≥ 2`, from `arrivals = 0` and
`generation = g`, with `g + k ≤ INT_MAX`: under every schedule, polling
included, that drives all `m` ranks through `wall_use` `k` times (every rank
has returned from `k` calls and is outside of `wall_use`), `arrivals = 0` and
`generation = g + k`. The schedule of `k` full cycles in rank order is such a
schedule, from every state with `arrivals = 0`, `generation = g` and all ranks
outside of `wall_use`; in particular one full cycle from `g < INT_MAX`
advances `generation` by exactly one. -/
theorem full_cycles (m k : Nat) (g : Int) (hm : 2 ≤ m) (hmax : (m : Int) ≤ INT_MAX)
    (hg1 : INT_MIN ≤ g) (hg2 : g + (k : Int) ≤ INT_MAX) :
    (∀ sched : List Nat,
      (∀ i, i < m → ((run m (init g) sched).procs i).pc = .idle ∧
        ((run m (init g) sched).procs i).calls = k) →
      (run m (init g) sched).shared = ⟨0, g + (k : Int)⟩) ∧
    (∀ s0 : State, s0.shared = ⟨0, g⟩ → (∀ i, i < m → (s0.procs i).pc = .idle) →
      (run m s0 (cyclesSched m k)).shared = ⟨0, g + (k : Int)⟩ ∧
      (∀ i, i < m → ((run m s0 (cyclesSched m k)).procs i).pc = .idle ∧
        ((run m s0 (cyclesSched m k)).procs i).calls = (s0.procs i).calls + k) ∧
      (g < INT_MAX → (run m s0 (cycleSched m)).shared = ⟨0, g + 1⟩)) := by
  have hk : (0 : Int) ≤ (k : Int) := Int.ofNat_nonneg k
  constructor
  · intro sched hret
    have hw : wrap32 (g + (k : Int)) = g + (k : Int) := by
      simp only [INT_MIN, INT_MAX] at hg1 hg2
      exact wrap32_id _ (by omega) (by omega)
    rw [returned_shared m k g hm hmax hg1 (by omega) sched hret, hw]
  · intro s0 hs hidle
    obtain ⟨h1, h2⟩ := run_cycles m hm hmax k g s0 hs hidle hg1 hg2
    refine ⟨h1, h2, fun hlt => ?_⟩
    have hw : wrap32 (g + 1) = g + 1 := by
      simp only [INT_MIN, INT_MAX] at hg1 hlt
      exact wrap32_id _ (by omega) (by omega)
    rw [(run_cycle m hm hmax g s0 hs hidle).1, hw]

/-- Witness of C2 amended. Scenario D: two processes, one hundred full cycles
from `generation = 0` end with `generation = 100` and `arrivals = 0`. A cycle
with polling: under `pollSched` both ranks sleep in their loops and return
from one call, and `generation` goes from 0 to 1 with `arrivals = 0`. -/
theorem full_cycles_witness :
    (run 2 (init 0) (cyclesSched 2 100)).shared = ⟨0, 100⟩ ∧
    (run 2 (init 0) pollSched).shared = ⟨0, 1⟩ ∧
    ((run 2 (init 0) pollSched).procs 0).slept = 2000 ∧
    ((run 2 (init 0) pollSched).procs 1).slept = 200 := by
  have h := ((full_cycles 2 100 0 (by decide) (by decide) (by decide) (by decide)).2
    (init 0) rfl (fun _ _ => rfl)).1
  have hp := (full_cycles 2 1 0 (by decide) (by decide) (by decide) (by decide)).1
    pollSched (by decide)
  exact ⟨by simpa using h, by simpa using hp, by decide, by decide⟩

end MySum
